import Mathlib

/-!
Verification development for the chunk-index search engine of apollo.nvim
(src/C/chunks.c, src/C/cosine_neon.c, src/C/cosine_simd.c, src/simd/cosine_neon.c).

Modelling conventions:
- IEEE-754 binary32/binary64 arithmetic is modelled over exact rationals with an
  explicit round-to-nearest-even operation (`rfp`) of the appropriate significand
  width, with unbounded exponent range (no overflow or subnormal handling; all
  concrete inputs used below stay well inside the normal range).
- Special values (infinities, NaN) are modelled by the dedicated carrier `F`
  where the claim under scrutiny exercises them (the unguarded zero-vector path
  of norm_neon); the all-finite code paths are modelled directly over ℚ.
- Machine loops become structural recursion on lists or explicit fuel that is
  provably sufficient; pointer advances become list consumption.
-/

/-- Round a rational to the nearest integer, ties to even. -/
def roundNearestEven (q : ℚ) : ℤ :=
  let f := ⌊q⌋
  if q - f < 1/2 then f
  else if q - f > 1/2 then f + 1
  else if f % 2 = 0 then f else f + 1

/-- Round a rational to the nearest floating-point value with a significand of
`prec + 1` bits (round to nearest, ties to even), with unbounded exponent. -/
def rfp (prec : ℕ) (q : ℚ) : ℚ :=
  if q = 0 then 0
  else (roundNearestEven (q / 2 ^ (Int.log 2 |q| - prec)) : ℚ) * 2 ^ (Int.log 2 |q| - prec)

/-- Rounding to IEEE-754 binary32 (24-bit significand). -/
def r32 : ℚ → ℚ := rfp 23

/-- Rounding to IEEE-754 binary64 (53-bit significand). -/
def r64 : ℚ → ℚ := rfp 52

/-- Single-precision addition. -/
def f32_add (a b : ℚ) : ℚ := r32 (a + b)

/-- Single-precision multiplication. -/
def f32_mul (a b : ℚ) : ℚ := r32 (a * b)

/-- Double-precision addition. -/
def f64_add (a b : ℚ) : ℚ := r64 (a + b)

/-- Double-precision multiplication. -/
def f64_mul (a b : ℚ) : ℚ := r64 (a * b)

/-- One 128-bit NEON vector of four single-precision lanes. -/
structure Vec4 where
  l0 : ℚ
  l1 : ℚ
  l2 : ℚ
  l3 : ℚ
deriving DecidableEq, Repr

/-- NEON vmovq_n_f32: broadcast a scalar to all four lanes. -/
def vmovq_n_f32 (a : ℚ) : Vec4 := ⟨a, a, a, a⟩

/-- NEON vmlaq_f32: lanewise multiply-accumulate (AArch64 FMLA, fused: a single
rounding per lane). -/
def vmlaq_f32 (acc x y : Vec4) : Vec4 :=
  ⟨r32 (acc.l0 + x.l0 * y.l0), r32 (acc.l1 + x.l1 * y.l1),
   r32 (acc.l2 + x.l2 * y.l2), r32 (acc.l3 + x.l3 * y.l3)⟩

/-- NEON vaddvq_f32: horizontal add across the four lanes (pairwise FADDP tree,
each addition rounded in single precision). -/
def vaddvq_f32 (v : Vec4) : ℚ := f32_add (f32_add v.l0 v.l1) (f32_add v.l2 v.l3)

namespace CosineNeon

/-- Main loop of f32_dot_product_neon (src/C/cosine_neon.c, lines 24-31): while
at least four elements remain in both operands, multiply-accumulate four lanes;
returns the final accumulator together with the unconsumed tails. -/
def dotMain : List ℚ → List ℚ → Vec4 → Vec4 × List ℚ × List ℚ
  | x0 :: x1 :: x2 :: x3 :: xs, y0 :: y1 :: y2 :: y3 :: ys, acc =>
      dotMain xs ys (vmlaq_f32 acc ⟨x0, x1, x2, x3⟩ ⟨y0, y1, y2, y3⟩)
  | xs, ys, acc => (acc, xs, ys)

/-- Tail loop of f32_dot_product_neon (src/C/cosine_neon.c, lines 36-39): the
running sum is a single-precision float, so each product and each addition is
rounded to binary32. -/
def dotTail : List ℚ → List ℚ → ℚ → ℚ
  | x :: xs, y :: ys, s => dotTail xs ys (f32_add s (f32_mul x y))
  | _, _, s => s

/-- Shallow embedding of f32_dot_product_neon from src/C/cosine_neon.c (lines
15-42).  The C size argument corresponds to the list lengths; the final store
widens the single-precision sum to double, which is exact. -/
def f32_dot_product_neon (x y : List ℚ) : ℚ :=
  let r := dotMain x y (vmovq_n_f32 0)
  dotTail r.2.1 r.2.2 (vaddvq_f32 r.1)

end CosineNeon

namespace CosineSimd

/-- Main loop of the NEON branch of f32_dot_product_simd (src/C/cosine_simd.c,
lines 30-36). -/
def dotMain : List ℚ → List ℚ → Vec4 → Vec4 × List ℚ × List ℚ
  | x0 :: x1 :: x2 :: x3 :: xs, y0 :: y1 :: y2 :: y3 :: ys, acc =>
      dotMain xs ys (vmlaq_f32 acc ⟨x0, x1, x2, x3⟩ ⟨y0, y1, y2, y3⟩)
  | xs, ys, acc => (acc, xs, ys)

/-- Tail loop of the NEON branch of f32_dot_product_simd (src/C/cosine_simd.c,
line 38): single-precision accumulation. -/
def dotTail : List ℚ → List ℚ → ℚ → ℚ
  | x :: xs, y :: ys, s => dotTail xs ys (f32_add s (f32_mul x y))
  | _, _, s => s

/-- Shallow embedding of the NEON branch of f32_dot_product_simd from
src/C/cosine_simd.c (lines 29-40). -/
def f32_dot_product_simd (x y : List ℚ) : ℚ :=
  let r := dotMain x y (vmovq_n_f32 0)
  dotTail r.2.1 r.2.2 (vaddvq_f32 r.1)

/-- Shallow embedding of the scalar-fallback norm_simd from src/C/cosine_simd.c
(lines 187-193).  The reciprocal square root 1.0f / sqrtf(sum) is abstracted by
the parameter `inv_sqrt` (its value is irrelevant to the guarded zero case);
note the explicit early return when the sum of squares is exactly zero. -/
def norm_simd (inv_sqrt : ℚ → ℚ) (v : List ℚ) : List ℚ :=
  let sum := v.foldl (fun s x => f32_add s (f32_mul x x)) 0
  if sum = 0 then v
  else v.map fun x => f32_mul x (inv_sqrt sum)

end CosineSimd

namespace SimdCosineNeon

/-- Main loop of f32_dot_product_neon (src/simd/cosine_neon.c, lines 62-69). -/
def dotMain : List ℚ → List ℚ → Vec4 → Vec4 × List ℚ × List ℚ
  | x0 :: x1 :: x2 :: x3 :: xs, y0 :: y1 :: y2 :: y3 :: ys, acc =>
      dotMain xs ys (vmlaq_f32 acc ⟨x0, x1, x2, x3⟩ ⟨y0, y1, y2, y3⟩)
  | xs, ys, acc => (acc, xs, ys)

/-- Tail loop of f32_dot_product_neon (src/simd/cosine_neon.c, lines 74-77). -/
def dotTail : List ℚ → List ℚ → ℚ → ℚ
  | x :: xs, y :: ys, s => dotTail xs ys (f32_add s (f32_mul x y))
  | _, _, s => s

/-- Shallow embedding of f32_dot_product_neon from src/simd/cosine_neon.c
(lines 53-80). -/
def f32_dot_product_neon (x y : List ℚ) : ℚ :=
  let r := dotMain x y (vmovq_n_f32 0)
  dotTail r.2.1 r.2.2 (vaddvq_f32 r.1)

end SimdCosineNeon

/-- Tail loop as the specification describes it: products and additions carried
out in double precision. -/
def specDotTail : List ℚ → List ℚ → ℚ → ℚ
  | x :: xs, y :: ys, s => specDotTail xs ys (f64_add s (f64_mul x y))
  | _, _, s => s

/-- Modelled from the spec (section 4.2, dotProduct): vectorized single-precision
multiply-accumulate over the aligned portion, horizontally reduced and widened
to double at that reduction step, with the scalar tail computed and added in
double precision.  This is the spec-side reference the code is compared with. -/
def dotProduct_spec (x y : List ℚ) : ℚ :=
  let r := CosineNeon.dotMain x y (vmovq_n_f32 0)
  specDotTail r.2.1 r.2.2 (vaddvq_f32 r.1)

/-- IEEE-754 value carrier with special values, used where the code exercises
infinities and NaN (the unguarded zero-vector path of norm_neon). -/
inductive F where
  | fin (q : ℚ)
  | inf
  | ninf
  | nan
deriving DecidableEq, Repr

namespace F

/-- IEEE-754 single-precision addition with special values. -/
def fadd : F → F → F
  | fin a, fin b => fin (r32 (a + b))
  | nan, _ => nan
  | _, nan => nan
  | inf, ninf => nan
  | ninf, inf => nan
  | inf, _ => inf
  | _, inf => inf
  | ninf, _ => ninf
  | _, ninf => ninf

/-- IEEE-754 single-precision multiplication with special values
(in particular 0 times an infinity is NaN). -/
def fmul : F → F → F
  | fin a, fin b => fin (r32 (a * b))
  | nan, _ => nan
  | _, nan => nan
  | fin a, inf => if a = 0 then nan else if a > 0 then inf else ninf
  | fin a, ninf => if a = 0 then nan else if a > 0 then ninf else inf
  | inf, fin b => if b = 0 then nan else if b > 0 then inf else ninf
  | ninf, fin b => if b = 0 then nan else if b > 0 then ninf else inf
  | inf, inf => inf
  | inf, ninf => ninf
  | ninf, inf => ninf
  | ninf, ninf => inf

/-- Fused multiply-accumulate (AArch64 FMLA): a single rounding on the
all-finite path, IEEE special-value propagation otherwise. -/
def fmla (acc x y : F) : F :=
  match acc, x, y with
  | fin a, fin b, fin c => fin (r32 (a + b * c))
  | _, _, _ => fadd acc (fmul x y)

/-- ARM FRSQRTE reciprocal-square-root estimate: the architected special cases
(+0 gives +Inf, +Inf gives +0, negative inputs give NaN), with the positive
finite estimate table abstracted by `est`. -/
def vrsqrte (est : ℚ → ℚ) : F → F
  | fin q => if q = 0 then inf else if q < 0 then nan else fin (est q)
  | inf => fin 0
  | ninf => nan
  | nan => nan

/-- ARM FRSQRTS Newton-Raphson step (3 - a*b) / 2, computed fused with a single
rounding; the architected special case returns 1.5 when one operand is zero and
the other infinite. -/
def vrsqrts (a b : F) : F :=
  if (a = fin 0 ∧ (b = inf ∨ b = ninf)) ∨ (b = fin 0 ∧ (a = inf ∨ a = ninf)) then fin (3/2)
  else
    match a, b with
    | fin x, fin y => fin (r32 ((3 - x * y) / 2))
    | _, _ => fmul (fadd (fin 3) (fmul (fin (-1)) (fmul a b))) (fin (1/2))

end F

/-- Four identical NEON lanes of `F` values: the norm_neon Newton-Raphson block
operates on vdupq-broadcast vectors whose four lanes always hold the same
value, so it is modelled on a single representative lane (vgetq_lane_f32
extracts lane 0 at the end). -/
structure Vec4F where
  l0 : F
  l1 : F
  l2 : F
  l3 : F
deriving DecidableEq, Repr

/-- Lanewise fused multiply-accumulate on `F` lanes. -/
def vmlaqF (acc x y : Vec4F) : Vec4F :=
  ⟨F.fmla acc.l0 x.l0 y.l0, F.fmla acc.l1 x.l1 y.l1,
   F.fmla acc.l2 x.l2 y.l2, F.fmla acc.l3 x.l3 y.l3⟩

/-- Horizontal add across `F` lanes (pairwise FADDP tree). -/
def vaddvqF (v : Vec4F) : F := F.fadd (F.fadd v.l0 v.l1) (F.fadd v.l2 v.l3)

namespace CosineNeon

/-- Sum-of-squares main loop of norm_neon (src/C/cosine_neon.c, lines 48-53)
over the special-value carrier. -/
def sumsqMainF : List F → Vec4F → Vec4F × List F
  | a :: b :: c :: d :: rest, acc => sumsqMainF rest (vmlaqF acc ⟨a, b, c, d⟩ ⟨a, b, c, d⟩)
  | rest, acc => (acc, rest)

/-- Sum-of-squares tail loop of norm_neon (src/C/cosine_neon.c, lines 55-57). -/
def sumsqTailF : List F → F → F
  | a :: rest, s => sumsqTailF rest (F.fadd s (F.fmul a a))
  | [], s => s

/-- Scaling loops of norm_neon (src/C/cosine_neon.c, lines 70-78): every
component is multiplied by inv_norm in single precision, four lanes at a time
and then a scalar tail; the per-component effect of the two loops coincides. -/
def scaleF (s : F) : List F → List F
  | a :: b :: c :: d :: rest => F.fmul a s :: F.fmul b s :: F.fmul c s :: F.fmul d s ::
      scaleF s rest
  | rest => rest.map fun x => F.fmul x s

/-- Shallow embedding of norm_neon from src/C/cosine_neon.c (lines 45-79) over
the special-value carrier: vectorized sum of squares, FRSQRTE estimate with two
FRSQRTS Newton-Raphson refinements (no zero guard), then in-place scaling.
The positive finite estimate table is abstracted by `est`. -/
def norm_neon (est : ℚ → ℚ) (v : List F) : List F :=
  let r := sumsqMainF v ⟨F.fin 0, F.fin 0, F.fin 0, F.fin 0⟩
  let sum := sumsqTailF r.2 (vaddvqF r.1)
  let y0 := F.vrsqrte est sum
  let y1 := F.fmul y0 (F.vrsqrts (F.fmul sum (F.fmul y0 y0)) y0)
  let y2 := F.fmul y1 (F.vrsqrts (F.fmul sum (F.fmul y1 y1)) y1)
  scaleF y2 v

/-- Sum-of-squares main loop of norm_neon over exact rationals. -/
def sumsqMain : List ℚ → Vec4 → Vec4 × List ℚ
  | a :: b :: c :: d :: rest, acc => sumsqMain rest (vmlaq_f32 acc ⟨a, b, c, d⟩ ⟨a, b, c, d⟩)
  | rest, acc => (acc, rest)

/-- Sum-of-squares tail loop of norm_neon over exact rationals. -/
def sumsqTail : List ℚ → ℚ → ℚ
  | a :: rest, s => sumsqTail rest (f32_add s (f32_mul a a))
  | [], s => s

/-- Sum of squares as computed by norm_neon (src/C/cosine_neon.c, lines 47-57). -/
def sumsq (v : List ℚ) : ℚ :=
  let r := sumsqMain v (vmovq_n_f32 0)
  sumsqTail r.2 (vaddvq_f32 r.1)

/-- FRSQRTS Newton-Raphson step over rationals (all-finite path). -/
def vrsqrtsQ (a b : ℚ) : ℚ := r32 ((3 - a * b) / 2)

/-- Scaling loops of norm_neon over exact rationals. -/
def scaleQ (s : ℚ) : List ℚ → List ℚ
  | a :: b :: c :: d :: rest => f32_mul a s :: f32_mul b s :: f32_mul c s :: f32_mul d s ::
      scaleQ s rest
  | rest => rest.map fun x => f32_mul x s

/-- Shallow embedding of norm_neon from src/C/cosine_neon.c (lines 45-79) over
exact rationals.  Faithful to the C code whenever the computed sum of squares
is nonzero; the zero case takes the FRSQRTE special path and is modelled by
`norm_neon` over the carrier `F` above (the C code produces NaN there). -/
def norm_neonQ (est : ℚ → ℚ) (v : List ℚ) : List ℚ :=
  let sum := sumsq v
  let y0 := est sum
  let y1 := f32_mul y0 (vrsqrtsQ (f32_mul sum (f32_mul y0 y0)) y0)
  let y2 := f32_mul y1 (vrsqrtsQ (f32_mul sum (f32_mul y1 y1)) y1)
  scaleQ y2 v

end CosineNeon

/-- One parsed chunk record (struct Chunk in src/C/chunks.c, lines 16-21).
String fields are the byte sequences the C views point at (length-prefixed in
the file, not null-terminated); the embedding holds binary32 values as exact
rationals. -/
structure Chunk where
  id : List ℕ
  parent : List ℕ
  file : List ℕ
  ext : List ℕ
  text : List ℕ
  start_ln : ℕ
  end_ln : ℕ
  dim : ℕ
  emb : List ℚ
deriving DecidableEq, Repr

/-- Default chunk, used only as the out-of-range default of list lookups. -/
def chunkDflt : Chunk := ⟨[], [], [], [], [], 0, 0, 0, []⟩

/-- The corpus handle (struct ChunkIndex in src/C/chunks.c, lines 24-28): the
record table; N is the table length, and the arena bytes are already
materialized inside each record view. -/
structure ChunkIndex where
  chunks : List Chunk
deriving DecidableEq, Repr

/-- One heap entry (struct Pair in src/C/chunks.c, line 82). -/
structure Pair where
  score : ℚ
  idx : ℕ
deriving DecidableEq, Repr

/-- Default pair, used only as the out-of-range default of list lookups (the C
code only ever indexes the heap below K). -/
def pairDflt : Pair := ⟨0, 0⟩

/-- The three-assignment swap h[i] and h[c] inside sift_down (src/C/chunks.c,
line 89); both reads happen before the write to the distinct position i. -/
def heapSwap (h : List Pair) (i c : ℕ) : List Pair :=
  (h.set i (h.getD c pairDflt)).set c (h.getD i pairDflt)

/-- Iterative loop of sift_down (src/C/chunks.c, lines 84-92), with explicit
fuel: the index at least doubles every iteration and stays below K, so K units
of fuel always exceed the number of iterations the C loop performs. -/
def sift_down_loop (K : ℕ) : ℕ → ℕ → List Pair → List Pair
  | 0, _, h => h
  | fuel + 1, i, h =>
    let c := 2 * i + 1
    if c ≥ K then h
    else
      let c := if c + 1 < K ∧ (h.getD (c + 1) pairDflt).score < (h.getD c pairDflt).score
        then c + 1 else c
      if (h.getD c pairDflt).score < (h.getD i pairDflt).score then
        sift_down_loop K fuel c (heapSwap h i c)
      else h

/-- Shallow embedding of sift_down (src/C/chunks.c, lines 83-93).  Note that
the C function always starts sifting at index i = 0, the root. -/
def sift_down (h : List Pair) (K : ℕ) : List Pair := sift_down_loop K K 0 h

/-- The heap-build loop of ci_search (src/C/chunks.c, lines 124-126): the C
code runs `for (int p = (K-2)/2; p >= 0; p--) sift_down(heap, K);`, that is, it
calls sift_down (with its hard-coded start index 0) exactly (K-2)/2 + 1 times,
never using the loop variable p.  With C integer division, (K-2)/2 equals the
Nat expression (K-2)/2 for every K of at least 1 (at K = 1 both give 0). -/
def heapBuild (K : ℕ) : ℕ → List Pair → List Pair
  | 0, h => h
  | t + 1, h => heapBuild K t (sift_down h K)

/-- One iteration of the scan loop body of ci_search (src/C/chunks.c, lines
103-133): skip records whose dimensionality differs, score the rest, insert
while fewer than K entries are held, run the heap-build loop when the K-th
entry arrives (the C loop runs sift_down (K-2)/2 + 1 times, ignoring its loop
variable p, so every call starts at the root), and afterwards replace the root
exactly when the new score is strictly greater.  The empty-heap case of the
else branch is where the C code dereferences heap[0] of a zero-capacity
allocation (tracked separately by ci_search_oob). -/
def searchStep (K dim : ℕ) (q : List ℚ) (st : List Pair) (i : ℕ) (c : Chunk) : List Pair :=
  if c.dim ≠ dim then st
  else
    let sc := CosineNeon.f32_dot_product_neon (q.take dim) (c.emb.take dim)
    if st.length < K then
      let st2 := st ++ [⟨sc, i⟩]
      if st2.length = K then heapBuild K ((K - 2) / 2 + 1) st2 else st2
    else
      match st with
      | [] => st
      | root :: rest => if root.score < sc then sift_down (⟨sc, i⟩ :: rest) K else st

/-- The scan loop of ci_search over the record table, carrying the record index. -/
def searchLoop (K dim : ℕ) (q : List ℚ) : List Chunk → List Pair → ℕ → List Pair
  | [], st, _ => st
  | c :: rest, st, i => searchLoop K dim q rest (searchStep K dim q st i c) (i + 1)

/-- Shallow embedding of ci_search (src/C/chunks.c, lines 95-141): the returned
list is the final heap contents, copied out in heap order; its length is the
returned count sz.  The kernel is called with size = dim, reading exactly dim
elements of the query and of the stored embedding. -/
def ci_search (ci : ChunkIndex) (q : List ℚ) (dim K : ℕ) : List Pair :=
  searchLoop K dim q ci.chunks [] 0

/-- Companion instrumentation for ci_search: true exactly when some iteration
reaches the else branch of the insertion (so the C code evaluates
heap[0].score) while the heap capacity K is zero, i.e. when ci_search performs
an out-of-bounds read of the zero-entry calloc allocation. -/
def searchOobLoop (K dim : ℕ) (q : List ℚ) : List Chunk → List Pair → ℕ → Bool → Bool
  | [], _, _, b => b
  | c :: rest, st, i, b =>
      searchOobLoop K dim q rest (searchStep K dim q st i c) (i + 1)
        (b || (decide (c.dim = dim) && !decide (st.length < K) && st.isEmpty))

/-- Whether a call to ci_search reads the heap out of bounds (see
searchOobLoop). -/
def ci_search_oob (ci : ChunkIndex) (q : List ℚ) (dim K : ℕ) : Bool :=
  searchOobLoop K dim q ci.chunks [] 0 false

/-- The candidate score ci_search computes for a record (the dot product over
exactly dim elements of the query and of the stored embedding). -/
def candScore (dim : ℕ) (q : List ℚ) (c : Chunk) : ℚ :=
  CosineNeon.f32_dot_product_neon (q.take dim) (c.emb.take dim)


/-- One cell of the corpus file buffer.  A byte cell carries one byte of the
length-prefixed layout (counts, line numbers and string bytes); a flt cell
carries one 32-bit float of an embedding as its exact rational value.  The C
code reads the buffer with typed pointer dereferences that in every claim
under study hit cells of the matching kind; a parse result of none marks that
the pointer arithmetic of the unchecked C parser walked outside the buffer
(undefined behavior), since ci_load performs no bounds validation at all. -/
inductive Cell where
  | byte (b : ℕ)
  | flt (q : ℚ)
deriving DecidableEq, Repr

/-- Read a 32-bit little-endian unsigned integer, consuming four byte cells
(the dereference *(uint32_t*)p followed by p += 4). -/
def readU32c : List Cell → Option (ℕ × List Cell)
  | Cell.byte a :: Cell.byte b :: Cell.byte c :: Cell.byte d :: rest =>
      some (a + 256 * (b + 256 * (c + 256 * d)), rest)
  | _ => none

/-- Consume L string bytes (the view returned by read_str together with the
advance p += L). -/
def readBytesc : ℕ → List Cell → Option (List ℕ × List Cell)
  | 0, rest => some ([], rest)
  | n + 1, Cell.byte a :: rest => do
      let (s, r) ← readBytesc n rest
      pure (a :: s, r)
  | _ + 1, _ => none

/-- Shallow embedding of read_str (src/C/chunks.c, lines 30-35): read the
32-bit length prefix, then take that many bytes as the field view. -/
def read_str (cs : List Cell) : Option (List ℕ × List Cell) := do
  let (L, cs1) ← readU32c cs
  readBytesc L cs1

/-- Consume dim float cells (the embedding view plus p += 4*dim). -/
def readFloats : ℕ → List Cell → Option (List ℚ × List Cell)
  | 0, rest => some ([], rest)
  | n + 1, Cell.flt q :: rest => do
      let (s, r) ← readFloats n rest
      pure (q :: s, r)
  | _ + 1, _ => none

/-- Parse one record, in the exact field order of the loop body of ci_load
(src/C/chunks.c, lines 57-70), and normalize the embedding in place with
norm_neon immediately after reading it. -/
def readChunk (est : ℚ → ℚ) (cs : List Cell) : Option (Chunk × List Cell) := do
  let (idv, cs) ← read_str cs
  let (parentv, cs) ← read_str cs
  let (filev, cs) ← read_str cs
  let (extv, cs) ← read_str cs
  let (startv, cs) ← readU32c cs
  let (endv, cs) ← readU32c cs
  let (textv, cs) ← read_str cs
  let (dimv, cs) ← readU32c cs
  let (embv, cs) ← readFloats dimv cs
  pure (⟨idv, parentv, filev, extv, textv, startv, endv, dimv,
    CosineNeon.norm_neonQ est embv⟩, cs)

/-- Parse N records in sequence. -/
def readChunks (est : ℚ → ℚ) : ℕ → List Cell → Option (List Chunk × List Cell)
  | 0, cs => some ([], cs)
  | n + 1, cs => do
      let (c, cs1) ← readChunk est cs
      let (rest, cs2) ← readChunks est n cs1
      pure (c :: rest, cs2)

/-- Shallow embedding of ci_load (src/C/chunks.c, lines 37-73) on an
already-read file buffer: a 32-bit record count followed by that many records.
The C function returns NULL only for an fopen failure (modelled outside the
buffer abstraction); it has no error path for structural corruption, so a none
result here marks exactly the files on which the unchecked C parser
dereferences past the end of the buffer.  The FRSQRTE estimate table of the
normalization kernel is abstracted by `est`. -/
def ci_load (est : ℚ → ℚ) (cs : List Cell) : Option ChunkIndex := do
  let (n, cs1) ← readU32c cs
  let (chunksv, _) ← readChunks est n cs1
  pure ⟨chunksv⟩

/-- Accessor ci_get_id (src/C/chunks.c, line 144): the bytes of the id view. -/
def ci_get_id (ci : ChunkIndex) (i : ℕ) : List ℕ := (ci.chunks.getD i chunkDflt).id

/-- Accessor ci_get_parent (src/C/chunks.c, line 145). -/
def ci_get_parent (ci : ChunkIndex) (i : ℕ) : List ℕ := (ci.chunks.getD i chunkDflt).parent

/-- Accessor ci_get_file (src/C/chunks.c, line 146). -/
def ci_get_file (ci : ChunkIndex) (i : ℕ) : List ℕ := (ci.chunks.getD i chunkDflt).file

/-- Accessor ci_get_ext (src/C/chunks.c, line 147). -/
def ci_get_ext (ci : ChunkIndex) (i : ℕ) : List ℕ := (ci.chunks.getD i chunkDflt).ext

/-- Accessor ci_get_start (src/C/chunks.c, line 148). -/
def ci_get_start (ci : ChunkIndex) (i : ℕ) : ℕ := (ci.chunks.getD i chunkDflt).start_ln

/-- Accessor ci_get_end (src/C/chunks.c, line 149). -/
def ci_get_end (ci : ChunkIndex) (i : ℕ) : ℕ := (ci.chunks.getD i chunkDflt).end_ln

/-- Accessor ci_get_text (src/C/chunks.c, line 150). -/
def ci_get_text (ci : ChunkIndex) (i : ℕ) : List ℕ := (ci.chunks.getD i chunkDflt).text

/-- Field values of one record on the writer side, used to build well-formed
corpus files for the round-trip property. -/
structure RecordData where
  id : List ℕ
  parent : List ℕ
  file : List ℕ
  ext : List ℕ
  text : List ℕ
  start_ln : ℕ
  end_ln : ℕ
  emb : List ℚ
deriving DecidableEq, Repr

/-- Little-endian 32-bit encoding of a number below 2^32, as four byte cells. -/
def le4 (n : ℕ) : List Cell :=
  [Cell.byte (n % 256), Cell.byte (n / 256 % 256),
   Cell.byte (n / 65536 % 256), Cell.byte (n / 16777216 % 256)]

/-- Length-prefixed string encoding (LPStr of the file format): a 32-bit length
followed by the raw bytes, not null-terminated. -/
def lpstr (s : List ℕ) : List Cell := le4 s.length ++ s.map Cell.byte

/-- One record in the binary corpus layout (file format of section 6 of the
spec, matching the parse order of ci_load). -/
def encRecord (r : RecordData) : List Cell :=
  lpstr r.id ++ lpstr r.parent ++ lpstr r.file ++ lpstr r.ext ++
  le4 r.start_ln ++ le4 r.end_ln ++ lpstr r.text ++
  le4 r.emb.length ++ r.emb.map Cell.flt

/-- A whole corpus file: record count then the records. -/
def encFile (rs : List RecordData) : List Cell :=
  le4 rs.length ++ (rs.map encRecord).flatten

/-- The chunk that loading a written record is expected to produce when the
embedding is left numerically unchanged by normalization. -/
def toChunk (r : RecordData) : Chunk :=
  ⟨r.id, r.parent, r.file, r.ext, r.text, r.start_ln, r.end_ln, r.emb.length, r.emb⟩

/-- A minimal record with a one-dimensional embedding, used by the concrete
scenarios below. -/
def exChunk (v : ℚ) : Chunk := ⟨[], [], [], [], [], 0, 0, 1, [v]⟩

/-- Concrete corpus whose five eligible records arrive with scores
4, 3, 2, 1, 3/2 against the unit query [1]. -/
def exCorpus : ChunkIndex := ⟨[exChunk 4, exChunk 3, exChunk 2, exChunk 1, exChunk (3/2)]⟩

/-- Concrete one-record corpus with a single eligible record. -/
def exCorpus1 : ChunkIndex := ⟨[exChunk 1]⟩

/-- The 4-byte file that contains the record count 1 and nothing else. -/
def exTruncFile : List Cell := [Cell.byte 1, Cell.byte 0, Cell.byte 0, Cell.byte 0]

/-- A concrete writer-side record with nontrivial fields and an already-unit
embedding, used as the round-trip witness. -/
def exRecord : RecordData := ⟨[105, 100], [112], [102, 46, 99], [99], [104, 105], 3, 7,
  [1, 0, 0, 0]⟩

/-- Evaluation rule for `roundNearestEven` away from ties. -/
theorem roundNearestEven_eq_of {q : ℚ} {n : ℤ} (h1 : (n : ℚ) - 1/2 < q)
    (h2 : q < (n : ℚ) + 1/2) : roundNearestEven q = n := by
  unfold roundNearestEven
  rcases le_or_lt (n : ℚ) q with hq | hq
  · have hfl : ⌊q⌋ = n := by
      rw [Int.floor_eq_iff]
      constructor
      · exact hq
      · linarith
    simp only [hfl]
    rw [if_pos (by linarith)]
  · have hfl : ⌊q⌋ = n - 1 := by
      rw [Int.floor_eq_iff]
      push_cast
      constructor <;> linarith
    simp only [hfl]
    rw [if_neg, if_pos]
    · omega
    · push_cast
      linarith
    · push_cast
      intro hcon
      linarith

theorem int_log_eq {q : ℚ} {e : ℤ} (h0 : 0 < q) (h1 : 2 ^ e ≤ q)
    (h2 : q < 2 ^ (e + 1)) : Int.log 2 q = e := by
  have hb : (1 : ℕ) < 2 := by norm_num
  have ha : e ≤ Int.log 2 q := by
    rw [← Int.zpow_le_iff_le_log hb h0]
    exact_mod_cast h1
  have hc : Int.log 2 q < e + 1 := by
    rw [← Int.lt_zpow_iff_log_lt hb h0]
    push_cast
    exact h2
  omega

/-- Workhorse evaluation rule for `rfp` on a concrete positive rational: supply
the binade exponent `e` and the rounded significand `n`. -/
theorem rfp_eq {prec : ℕ} {q r : ℚ} {e n : ℤ}
    (h0 : 0 < q) (hlo : 2 ^ e ≤ q) (hhi : q < 2 ^ (e + 1))
    (hn1 : (n : ℚ) - 1/2 < q / 2 ^ (e - prec)) (hn2 : q / 2 ^ (e - prec) < (n : ℚ) + 1/2)
    (hr : (n : ℚ) * 2 ^ (e - prec) = r) : rfp prec q = r := by
  unfold rfp
  rw [if_neg (ne_of_gt h0), abs_of_pos h0, int_log_eq h0 hlo hhi,
    roundNearestEven_eq_of hn1 hn2, hr]

/-- Any value of the form `m * 2 ^ e` with `|m| ≤ 2 ^ (prec + 1)` is a fixed
point of `rfp prec` (it is exactly representable). -/
theorem rfp_eq_self {prec : ℕ} {m e : ℤ} :
    |m| ≤ 2 ^ (prec + 1) → rfp prec ((m : ℚ) * 2 ^ e) = (m : ℚ) * 2 ^ e := by
  intro hm
  by_cases hm0 : m = 0
  · subst hm0
    simp [rfp]
  set q : ℚ := (m : ℚ) * 2 ^ e with hq
  have hq0 : q ≠ 0 := by
    simp only [hq, mul_ne_zero_iff]
    constructor
    · exact_mod_cast hm0
    · positivity
  have habs : |q| = |(m : ℚ)| * 2 ^ e := by
    rw [hq, abs_mul, abs_of_pos (show (0:ℚ) < 2 ^ e by positivity)]
  have hmq : |(m : ℚ)| ≤ (2 : ℚ) ^ ((prec : ℤ) + 1) := by
    have h1 : ((|m| : ℤ) : ℚ) ≤ (((2 : ℤ) ^ (prec + 1) : ℤ) : ℚ) := by exact_mod_cast hm
    push_cast at h1
    rw [show ((prec : ℤ) + 1) = ((prec + 1 : ℕ) : ℤ) by push_cast; ring, zpow_natCast]
    exact_mod_cast h1
  set l : ℤ := Int.log 2 |q| with hl
  have h2l : (2 : ℚ) ^ l ≤ |q| := by
    have := Int.zpow_log_le_self (b := 2) (r := |q|) (by norm_num) (abs_pos.mpr hq0)
    push_cast at this
    exact this
  have hlle : l ≤ prec + 1 + e := by
    have h2 : |q| ≤ (2 : ℚ) ^ ((prec : ℤ) + 1 + e) := by
      rw [habs]
      calc |(m : ℚ)| * 2 ^ e ≤ (2 : ℚ) ^ ((prec : ℤ) + 1) * 2 ^ e :=
            mul_le_mul_of_nonneg_right hmq (by positivity)
        _ = (2 : ℚ) ^ ((prec : ℤ) + 1 + e) := (zpow_add₀ (by norm_num : (2:ℚ) ≠ 0) _ _).symm
    exact (zpow_le_zpow_iff_right₀ (by norm_num : (1:ℚ) < 2)).mp (h2l.trans h2)
  -- the significand after scaling is an integer
  have hint : ∃ k : ℤ, (k : ℚ) = q / 2 ^ (l - prec) := by
    rcases le_or_lt (l - prec) e with hle | hgt
    · refine ⟨m * 2 ^ (e - (l - prec)).toNat, ?_⟩
      rw [hq, eq_div_iff (by positivity : ((2:ℚ) ^ (l - prec)) ≠ 0)]
      push_cast
      rw [show ((2:ℚ) ^ (e - (l - (prec:ℤ))).toNat) = (2:ℚ) ^ (((e - (l - (prec:ℤ))).toNat : ℤ))
          from (zpow_natCast _ _).symm,
        Int.toNat_of_nonneg (by omega), mul_assoc, ← zpow_add₀ (by norm_num : (2:ℚ) ≠ 0),
        show e - (l - (prec:ℤ)) + (l - (prec:ℤ)) = e by ring]
    · -- here l - prec = e + 1 and |m| = 2 ^ (prec + 1), so m / 2 is integral
      have hle1 : l - prec = e + 1 := by omega
      have hml : (2 : ℚ) ^ ((prec : ℤ) + 1) ≤ |(m : ℚ)| := by
        have h2l' : (2 : ℚ) ^ ((prec : ℤ) + 1 + e) ≤ |(m : ℚ)| * 2 ^ e := by
          calc (2 : ℚ) ^ ((prec : ℤ) + 1 + e) ≤ (2:ℚ) ^ l := by
                apply zpow_le_zpow_right₀ (by norm_num : (1:ℚ) ≤ 2)
                omega
            _ ≤ |q| := h2l
            _ = |(m : ℚ)| * 2 ^ e := habs
        have h3 := mul_le_mul_of_nonneg_right h2l' (by positivity : (0:ℚ) ≤ (2:ℚ) ^ (-e))
        rwa [← zpow_add₀ (by norm_num : (2:ℚ) ≠ 0), add_neg_cancel_right, mul_assoc,
          ← zpow_add₀ (by norm_num : (2:ℚ) ≠ 0), add_neg_cancel, zpow_zero, mul_one] at h3
      have hml' : (2 : ℤ) ^ (prec + 1) ≤ |m| := by
        rw [show ((prec : ℤ) + 1) = ((prec + 1 : ℕ) : ℤ) by push_cast; ring, zpow_natCast] at hml
        exact_mod_cast hml
      have hmeq : |m| = 2 ^ (prec + 1) := le_antisymm hm hml'
      refine ⟨m / 2, ?_⟩
      have hdvd : (2 : ℤ) ∣ m := by
        rcases abs_eq (by positivity : (0:ℤ) ≤ 2 ^ (prec + 1)) |>.mp hmeq with h | h
        · exact ⟨2 ^ prec, by rw [h]; ring⟩
        · exact ⟨-(2 ^ prec), by rw [h]; ring⟩
      rw [hq, hle1, Int.cast_div_charZero hdvd]
      push_cast
      rw [div_eq_div_iff (by norm_num : ((2:ℚ)) ≠ 0)
        (by positivity : ((2:ℚ) ^ (e + 1)) ≠ 0)]
      rw [zpow_add_one₀ (by norm_num : (2:ℚ) ≠ 0)]
      ring
  rcases hint with ⟨k, hk⟩
  unfold rfp
  rw [if_neg hq0, ← hl, ← hk,
    @roundNearestEven_eq_of (k : ℚ) k (by linarith) (by linarith), hk, div_mul_cancel₀]
  positivity

/-- Any dyadic rational with a significand of at most 25 bits is a fixed point
of binary32 rounding. -/
theorem r32_dyadic {q : ℚ} (m e : ℤ) (hm : |m| ≤ 2 ^ 24) (hq : (m : ℚ) * 2 ^ e = q) :
    r32 q = q := by
  rw [← hq]
  exact rfp_eq_self hm

/-- Any dyadic rational with a significand of at most 54 bits is a fixed point
of binary64 rounding. -/
theorem r64_dyadic {q : ℚ} (m e : ℤ) (hm : |m| ≤ 2 ^ 53) (hq : (m : ℚ) * 2 ^ e = q) :
    r64 q = q := by
  rw [← hq]
  exact rfp_eq_self hm

theorem r32_zero : r32 0 = 0 := by simp [r32, rfp]

theorem r32_one : r32 1 = 1 := r32_dyadic 1 0 (by norm_num) (by norm_num)

theorem r32_two : r32 2 = 2 := r32_dyadic 2 0 (by norm_num) (by norm_num)

theorem r32_three : r32 3 = 3 := r32_dyadic 3 0 (by norm_num) (by norm_num)

theorem r32_four : r32 4 = 4 := r32_dyadic 4 0 (by norm_num) (by norm_num)

theorem r32_three_halves : r32 (3/2) = 3/2 := r32_dyadic 3 (-1) (by norm_num) (by norm_num)

namespace F

theorem fadd_fin_fin (a b : ℚ) : fadd (fin a) (fin b) = fin (r32 (a + b)) := rfl

theorem fadd_nan_left (x : F) : fadd nan x = nan := by cases x <;> rfl

theorem fadd_nan_right (x : F) : fadd x nan = nan := by cases x <;> rfl

theorem fadd_fin_inf (a : ℚ) : fadd (fin a) inf = inf := rfl

theorem fadd_inf_fin (a : ℚ) : fadd inf (fin a) = inf := rfl

theorem fmul_fin_fin (a b : ℚ) : fmul (fin a) (fin b) = fin (r32 (a * b)) := rfl

theorem fmul_nan_left (x : F) : fmul nan x = nan := by cases x <;> rfl

theorem fmul_nan_right (x : F) : fmul x nan = nan := by cases x <;> rfl

theorem fmul_inf_inf : fmul inf inf = inf := rfl

theorem fmul_fin_inf (a : ℚ) :
    fmul (fin a) inf = if a = 0 then nan else if a > 0 then inf else ninf := rfl

theorem fmul_inf_fin (b : ℚ) :
    fmul inf (fin b) = if b = 0 then nan else if b > 0 then inf else ninf := rfl

theorem fmla_fin (a b c : ℚ) : fmla (fin a) (fin b) (fin c) = fin (r32 (a + b * c)) := rfl

theorem vrsqrte_fin (est : ℚ → ℚ) (q : ℚ) :
    vrsqrte est (fin q) = if q = 0 then inf else if q < 0 then nan else fin (est q) := rfl

theorem vrsqrts_nan_left (x : F) : vrsqrts nan x = nan := by
  cases x <;> simp [vrsqrts, fmul_nan_left, fadd_nan_right, fmul_nan_right]

end F

/-- A query of [1] against a one-element embedding [v] scores exactly v whenever
v is representable in binary32. -/
theorem dotNeon_single {v : ℚ} (h : r32 v = v) :
    CosineNeon.f32_dot_product_neon [1] [v] = v := by
  simp [CosineNeon.f32_dot_product_neon, CosineNeon.dotMain, CosineNeon.dotTail,
    vmovq_n_f32, vaddvq_f32, f32_add, f32_mul, r32_zero, h]

theorem heapSwap_length (h : List Pair) (i c : ℕ) :
    (heapSwap h i c).length = h.length := by
  simp [heapSwap]

theorem heapSwap_mem {h : List Pair} {i c : ℕ} (hi : i < h.length) (hc : c < h.length)
    {x : Pair} (hx : x ∈ heapSwap h i c) : x ∈ h := by
  unfold heapSwap at hx
  rcases List.mem_or_eq_of_mem_set hx with hx1 | rfl
  · rcases List.mem_or_eq_of_mem_set hx1 with hx2 | rfl
    · exact hx2
    · rw [List.getD_eq_getElem h pairDflt hc]
      exact List.getElem_mem hc
  · rw [List.getD_eq_getElem h pairDflt hi]
    exact List.getElem_mem hi

theorem sift_down_loop_length (K : ℕ) :
    ∀ (fuel i : ℕ) (h : List Pair), (sift_down_loop K fuel i h).length = h.length
  | 0, _, _ => rfl
  | fuel + 1, i, h => by
    simp only [sift_down_loop]
    split_ifs with h1 h2 h3 <;>
      first
        | rfl
        | (rw [sift_down_loop_length K fuel]; exact heapSwap_length h i _)

theorem sift_down_loop_mem (K : ℕ) :
    ∀ (fuel i : ℕ) (h : List Pair), h.length = K → i < K →
      ∀ {x : Pair}, x ∈ sift_down_loop K fuel i h → x ∈ h
  | 0, _, _, _, _, _, hx => hx
  | fuel + 1, i, h, hlen, hi, x, hx => by
    simp only [sift_down_loop] at hx
    split_ifs at hx with h1 h2 h3 h4
    · exact hx
    · exact heapSwap_mem (by rw [hlen]; omega)
        (by rcases h2 with ⟨h2a, h2b⟩; rw [hlen]; omega)
        (sift_down_loop_mem K fuel _ _ (by rw [heapSwap_length]; exact hlen)
          (by rcases h2 with ⟨h2a, h2b⟩; omega) hx)
    · exact hx
    · exact heapSwap_mem (by rw [hlen]; omega) (by rw [hlen]; omega)
        (sift_down_loop_mem K fuel _ _ (by rw [heapSwap_length]; exact hlen)
          (by omega) hx)
    · exact hx

theorem sift_down_length (h : List Pair) (K : ℕ) : (sift_down h K).length = h.length :=
  sift_down_loop_length K K 0 h

theorem sift_down_mem {h : List Pair} {K : ℕ} (hlen : h.length = K) (hK : 0 < K)
    {x : Pair} (hx : x ∈ sift_down h K) : x ∈ h :=
  sift_down_loop_mem K K 0 h hlen hK hx

theorem heapBuild_length (K : ℕ) :
    ∀ (t : ℕ) (h : List Pair), (heapBuild K t h).length = h.length
  | 0, _ => rfl
  | t + 1, h => by
    rw [heapBuild, heapBuild_length K t, sift_down_length]

theorem heapBuild_mem (K : ℕ) :
    ∀ (t : ℕ) (h : List Pair), h.length = K → 0 < K →
      ∀ {x : Pair}, x ∈ heapBuild K t h → x ∈ h
  | 0, _, _, _, _, hx => hx
  | t + 1, h, hlen, hK, x, hx => by
    rw [heapBuild] at hx
    exact sift_down_mem hlen hK
      (heapBuild_mem K t _ (by rw [sift_down_length]; exact hlen) hK hx)

theorem searchStep_length (K dim : ℕ) (q : List ℚ) (st : List Pair) (i : ℕ) (c : Chunk)
    (hle : st.length ≤ K) :
    (searchStep K dim q st i c).length
      = if c.dim = dim then min K (st.length + 1) else st.length := by
  by_cases hdim : c.dim = dim
  · rw [if_pos hdim]
    simp only [searchStep, if_neg (show ¬ c.dim ≠ dim from fun h => h hdim)]
    by_cases hlt : st.length < K
    · rw [if_pos hlt]
      by_cases hfull : (st ++ [(⟨CosineNeon.f32_dot_product_neon (q.take dim)
          (c.emb.take dim), i⟩ : Pair)]).length = K
      · rw [if_pos hfull, heapBuild_length]
        simp only [List.length_append, List.length_cons, List.length_nil] at hfull ⊢
        omega
      · rw [if_neg hfull]
        simp only [List.length_append, List.length_cons, List.length_nil] at hfull ⊢
        omega
    · rw [if_neg hlt]
      cases st with
      | nil => dsimp only; simp at hlt ⊢; omega
      | cons root rest =>
        dsimp only
        by_cases hrep : root.score
            < CosineNeon.f32_dot_product_neon (q.take dim) (c.emb.take dim)
        · rw [if_pos hrep, sift_down_length]
          simp only [List.length_cons] at hle hlt ⊢
          omega
        · rw [if_neg hrep]
          simp only [List.length_cons] at hle hlt ⊢
          omega
  · rw [if_neg hdim]
    simp only [searchStep, if_pos (show c.dim ≠ dim from hdim)]

theorem searchStep_mem {K dim : ℕ} {q : List ℚ} {st : List Pair} {i : ℕ} {c : Chunk}
    (hle : st.length ≤ K) {x : Pair} (hx : x ∈ searchStep K dim q st i c) :
    x ∈ st ∨ (c.dim = dim ∧ x = ⟨candScore dim q c, i⟩) := by
  by_cases hdim : c.dim = dim
  · simp only [searchStep, if_neg (show ¬ c.dim ≠ dim from fun h => h hdim)] at hx
    by_cases hlt : st.length < K
    · rw [if_pos hlt] at hx
      by_cases hfull : (st ++ [(⟨CosineNeon.f32_dot_product_neon (q.take dim)
          (c.emb.take dim), i⟩ : Pair)]).length = K
      · rw [if_pos hfull] at hx
        have hK : 0 < K := by
          simp only [List.length_append, List.length_cons, List.length_nil] at hfull
          omega
        rcases List.mem_append.mp (heapBuild_mem K _ _ hfull hK hx) with h1 | h2
        · exact Or.inl h1
        · exact Or.inr ⟨hdim, by simpa [candScore] using h2⟩
      · rw [if_neg hfull] at hx
        rcases List.mem_append.mp hx with h1 | h2
        · exact Or.inl h1
        · exact Or.inr ⟨hdim, by simpa [candScore] using h2⟩
    · rw [if_neg hlt] at hx
      cases st with
      | nil => exact Or.inl hx
      | cons root rest =>
        dsimp only at hx
        by_cases hrep : root.score
            < CosineNeon.f32_dot_product_neon (q.take dim) (c.emb.take dim)
        · rw [if_pos hrep] at hx
          have hlen : ((⟨CosineNeon.f32_dot_product_neon (q.take dim)
              (c.emb.take dim), i⟩ : Pair) :: rest).length = K := by
            simp only [List.length_cons] at hle hlt ⊢
            omega
          have hK : 0 < K := by
            simp only [List.length_cons] at hle hlt
            omega
          rcases List.mem_cons.mp (sift_down_mem hlen hK hx) with h1 | h2
          · exact Or.inr ⟨hdim, by simpa [candScore] using h1⟩
          · exact Or.inl (List.mem_cons_of_mem _ h2)
        · rw [if_neg hrep] at hx
          exact Or.inl hx
  · simp only [searchStep, if_pos (show c.dim ≠ dim from hdim)] at hx
    exact Or.inl hx

theorem searchStep_length_le {K dim : ℕ} {q : List ℚ} {st : List Pair} {i : ℕ} {c : Chunk}
    (hle : st.length ≤ K) : (searchStep K dim q st i c).length ≤ K := by
  rw [searchStep_length K dim q st i c hle]
  split <;> omega

theorem searchLoop_length (K dim : ℕ) (q : List ℚ) :
    ∀ (cs : List Chunk) (st : List Pair) (i : ℕ), st.length ≤ K →
      (searchLoop K dim q cs st i).length
        = min K (st.length + (cs.filter fun c => decide (c.dim = dim)).length)
  | [], st, i, hle => by
    simp only [searchLoop, List.filter_nil, List.length_nil, Nat.add_zero]
    omega
  | c :: rest, st, i, hle => by
    rw [searchLoop, searchLoop_length K dim q rest _ _ (searchStep_length_le hle),
      searchStep_length K dim q st i c hle]
    by_cases hdim : c.dim = dim
    · simp only [if_pos hdim, List.filter_cons, decide_eq_true_eq, hdim, if_pos,
        List.length_cons]
      omega
    · simp only [if_neg hdim, List.filter_cons, decide_eq_true_eq, hdim, if_neg,
        not_false_eq_true]

theorem searchLoop_mem (K dim : ℕ) (q : List ℚ) :
    ∀ (cs : List Chunk) (st : List Pair) (i : ℕ) (x : Pair), st.length ≤ K →
      x ∈ searchLoop K dim q cs st i →
      x ∈ st ∨ ∃ j, ∃ hj : j < cs.length, (cs.get ⟨j, hj⟩).dim = dim ∧
        x = ⟨candScore dim q (cs.get ⟨j, hj⟩), i + j⟩
  | [], st, i, x, hle, hx => Or.inl hx
  | c :: rest, st, i, x, hle, hx => by
    rcases searchLoop_mem K dim q rest _ _ _ (searchStep_length_le hle) hx with h1 | h2
    · rcases searchStep_mem hle h1 with h3 | ⟨hdim, rfl⟩
      · exact Or.inl h3
      · exact Or.inr ⟨0, by simp, by simpa using hdim, by simp⟩
    · rcases h2 with ⟨j, hj, hdim, rfl⟩
      refine Or.inr ⟨j + 1, by simpa using Nat.succ_lt_succ hj, ?_, ?_⟩
      · simpa using hdim
      · simp only [List.get_cons_succ]
        congr 1
        omega

/-- C8: for every corpus, query and K, the count returned by ci_search equals
the minimum of K and the number of eligible records (those whose stored
dimensionality equals dim); when K exceeds the number of eligible records
exactly that many hits are returned with no padding, and for the empty corpus
the search returns 0 hits. -/
theorem c8_search_count (ci : ChunkIndex) (q : List ℚ) (dim K : ℕ) :
    (ci_search ci q dim K).length
        = min K (ci.chunks.filter fun c => decide (c.dim = dim)).length ∧
      ci_search ⟨[]⟩ q dim K = [] := by
  constructor
  · simpa [ci_search] using searchLoop_length K dim q ci.chunks [] 0 (by simp)
  · rfl

/-- C6: a record whose stored embedding dimensionality differs from the query
dimension never appears in the output of ci_search: every returned pair points
at an in-range record whose dimensionality equals dim (the mismatched ones are
skipped silently, never scored and never counted). -/
theorem c6_dim_filter (ci : ChunkIndex) (q : List ℚ) (dim K : ℕ) (p : Pair)
    (hp : p ∈ ci_search ci q dim K) :
    p.idx < ci.chunks.length ∧ (ci.chunks.getD p.idx chunkDflt).dim = dim := by
  rcases searchLoop_mem K dim q ci.chunks [] 0 p (by simp) hp with h | ⟨j, hj, hdim, rfl⟩
  · simp at h
  · refine ⟨by simpa using hj, ?_⟩
    simp only [Nat.zero_add]
    rw [List.getD_eq_getElem _ _ (by simpa using hj)]
    simpa [List.get_eq_getElem] using hdim

/-- Witness for C6 at a concrete corpus: the pair returned for the single
eligible record of exCorpus1 indeed points at an in-range record of matching
dimensionality. -/
theorem c6_dim_filter_witness :
    (⟨1, 0⟩ : Pair).idx < exCorpus1.chunks.length ∧
    (exCorpus1.chunks.getD (⟨1, 0⟩ : Pair).idx chunkDflt).dim = 1 :=
  c6_dim_filter exCorpus1 [1] 1 1 ⟨1, 0⟩ (by
    norm_num [ci_search, searchLoop, searchStep, sift_down, sift_down_loop, heapBuild,
      exCorpus1, exChunk, dotNeon_single r32_one, pairDflt, List.getD, List.set])

/-- C9: once K entries are present, a candidate whose score equals the current
minimum retained score (hence is at most every retained score) never displaces
an earlier retained entry: the heap state is returned unchanged, because the
root is replaced only when the new score is strictly greater than the score at
heap[0]. -/
theorem c9_tie_never_displaces (K dim : ℕ) (q : List ℚ) (st : List Pair) (i : ℕ)
    (c : Chunk) (hfull : ¬ st.length < K)
    (hmin : ∀ p ∈ st, candScore dim q c ≤ p.score)
    (hmem : ∃ p ∈ st, p.score = candScore dim q c) :
    searchStep K dim q st i c = st := by
  by_cases hdim : c.dim = dim
  · simp only [searchStep, if_neg (show ¬ c.dim ≠ dim from fun h => h hdim), if_neg hfull]
    cases st with
    | nil => rfl
    | cons root rest =>
      dsimp only
      rw [if_neg (show ¬ root.score < CosineNeon.f32_dot_product_neon (List.take dim q)
        (List.take dim c.emb) from not_lt.mpr (hmin root (List.mem_cons_self root rest)))]
  · simp only [searchStep, if_pos (show c.dim ≠ dim from hdim)]

/-- Witness for C9: a tied candidate (score 1, equal to the single retained
minimum) leaves the full heap of capacity K = 1 unchanged. -/
theorem c9_tie_never_displaces_witness :
    searchStep 1 1 [1] [⟨1, 0⟩] 5 (exChunk 1) = [⟨1, 0⟩] :=
  c9_tie_never_displaces 1 1 [1] [⟨1, 0⟩] 5 (exChunk 1) (by norm_num)
    (by
      intro p hp
      rw [List.mem_singleton.mp hp]
      norm_num [candScore, exChunk, dotNeon_single r32_one])
    ⟨⟨1, 0⟩, List.mem_singleton_self _, by
      norm_num [candScore, exChunk, dotNeon_single r32_one]⟩

/-- C1: the claim fails on the code.  ci_search does not return the K
highest-scoring eligible candidates: the heap-build loop at src/C/chunks.c
lines 124-126 ignores its loop variable p and always sifts from the root, so
after the K-th insertion the array need not satisfy the heap property.  On the
corpus exCorpus (five eligible one-dimensional records with scores 4, 3, 2, 1,
3/2 in arrival order) with K = 4, the code retains the scores 4, 3, 2 and 1
and discards the later candidate of score 3/2, although 3/2 is strictly
greater than the retained score 1: the root holds 2 instead of the true
minimum 1 when the candidate arrives, so the comparison at line 129 rejects
it.  This theorem evaluates the code at that failing input. -/
theorem c1_topk_violated :
    (ci_search exCorpus [1] 1 4).map Pair.score = [2, 3, 4, 1] ∧
    (∀ c ∈ exCorpus.chunks, c.dim = 1) ∧
    candScore 1 [1] (exCorpus.chunks.getD 4 chunkDflt) = 3/2 ∧
    (3/2 : ℚ) ∉ (ci_search exCorpus [1] 1 4).map Pair.score ∧
    (1 : ℚ) ∈ (ci_search exCorpus [1] 1 4).map Pair.score ∧
    (1 : ℚ) < 3/2 := by
  have hsearch : ci_search exCorpus [1] 1 4 = [⟨2, 2⟩, ⟨3, 1⟩, ⟨4, 0⟩, ⟨1, 3⟩] := by
    norm_num [ci_search, searchLoop, searchStep, sift_down, sift_down_loop, heapBuild,
      heapSwap, exCorpus, exChunk, dotNeon_single r32_four, dotNeon_single r32_three,
      dotNeon_single r32_two, dotNeon_single r32_one, dotNeon_single r32_three_halves,
      pairDflt, List.getD, List.set]
  refine ⟨by rw [hsearch]; rfl, ?_, ?_, ?_, ?_, by norm_num⟩
  · intro c hc
    fin_cases hc <;> rfl
  · norm_num [candScore, exCorpus, exChunk, List.getD, dotNeon_single r32_three_halves]
  · rw [hsearch]
    norm_num
  · rw [hsearch]
    norm_num

/-- C2: the claim fails on the code.  ci_load performs no bounds validation and
has no structural (Truncated) error path at all: on the 4-byte file whose
record count is 1 and which contains no record data, the first read_str
dereferences the length prefix past the end of the buffer.  In this model a
parse result of none marks exactly that out-of-bounds dereference (undefined
behavior in the C code); the C function returns NULL only for an fopen
failure. -/
theorem c2_load_unvalidated (est : ℚ → ℚ) : ci_load est exTruncFile = none := by
  simp [ci_load, exTruncFile, readU32c, readChunks, readChunk, read_str, Option.bind]

/-- C3: the claim fails on the code.  norm_neon has no zero guard: on the
all-zero vector (here of dimension 5, exercising both the vectorized loop and
the scalar tail), the sum of squares is +0, FRSQRTE returns +Inf, the first
Newton-Raphson step multiplies 0 by Inf producing NaN, and the final scaling
turns every component into NaN - for every possible FRSQRTE estimate table.
The scalar fallback norm_simd (src/C/cosine_simd.c lines 187-193) instead
guards sum == 0 and leaves the vector unchanged. -/
theorem c3_norm_neon_zero_nan (est : ℚ → ℚ) :
    CosineNeon.norm_neon est (List.replicate 5 (F.fin 0)) = List.replicate 5 F.nan := by
  norm_num [List.replicate, CosineNeon.norm_neon, CosineNeon.sumsqMainF,
    CosineNeon.sumsqTailF, CosineNeon.scaleF, vmlaqF, vaddvqF, F.fmla_fin, F.fadd_fin_fin,
    F.fmul_fin_fin, F.fmul_fin_inf, F.fmul_inf_inf, F.fmul_nan_left, F.fmul_nan_right,
    F.vrsqrte_fin, F.vrsqrts_nan_left, r32_zero]

/-- C4: the claim fails on the code.  With K = 0 and one eligible record,
ci_search does return 0 retained entries, but the scan reaches the else branch
with a zero-capacity heap and evaluates heap[0].score, an out-of-bounds read
of the calloc(0, ...) allocation (undefined behavior; a NULL dereference when
calloc returns NULL). -/
theorem c4_k0_reads_empty_heap :
    ci_search exCorpus1 [1] 1 0 = [] ∧ ci_search_oob exCorpus1 [1] 1 0 = true := by
  norm_num [ci_search, ci_search_oob, searchLoop, searchOobLoop, searchStep,
    exCorpus1, exChunk]

theorem dotMain_simd_eq :
    ∀ (x y : List ℚ) (acc : Vec4), CosineSimd.dotMain x y acc = CosineNeon.dotMain x y acc
  | x0 :: x1 :: x2 :: x3 :: xs, y0 :: y1 :: y2 :: y3 :: ys, acc => by
    rw [CosineSimd.dotMain, CosineNeon.dotMain]
    exact dotMain_simd_eq xs ys _
  | [], _, _ => rfl
  | [_], _, _ => rfl
  | [_, _], _, _ => rfl
  | [_, _, _], _, _ => rfl
  | _ :: _ :: _ :: _ :: _, [], _ => rfl
  | _ :: _ :: _ :: _ :: _, [_], _ => rfl
  | _ :: _ :: _ :: _ :: _, [_, _], _ => rfl
  | _ :: _ :: _ :: _ :: _, [_, _, _], _ => rfl

theorem dotTail_simd_eq :
    ∀ (x y : List ℚ) (s : ℚ), CosineSimd.dotTail x y s = CosineNeon.dotTail x y s
  | x :: xs, y :: ys, s => dotTail_simd_eq xs ys (f32_add s (f32_mul x y))
  | [], _, _ => rfl
  | _ :: _, [], _ => rfl

theorem dotMain_simdneon_eq :
    ∀ (x y : List ℚ) (acc : Vec4),
      SimdCosineNeon.dotMain x y acc = CosineNeon.dotMain x y acc
  | x0 :: x1 :: x2 :: x3 :: xs, y0 :: y1 :: y2 :: y3 :: ys, acc => by
    rw [SimdCosineNeon.dotMain, CosineNeon.dotMain]
    exact dotMain_simdneon_eq xs ys _
  | [], _, _ => rfl
  | [_], _, _ => rfl
  | [_, _], _, _ => rfl
  | [_, _, _], _, _ => rfl
  | _ :: _ :: _ :: _ :: _, [], _ => rfl
  | _ :: _ :: _ :: _ :: _, [_], _ => rfl
  | _ :: _ :: _ :: _ :: _, [_, _], _ => rfl
  | _ :: _ :: _ :: _ :: _, [_, _, _], _ => rfl

theorem dotTail_simdneon_eq :
    ∀ (x y : List ℚ) (s : ℚ), SimdCosineNeon.dotTail x y s = CosineNeon.dotTail x y s
  | x :: xs, y :: ys, s => dotTail_simdneon_eq xs ys (f32_add s (f32_mul x y))
  | [], _, _ => rfl
  | _ :: _, [], _ => rfl

/-- C10: the three dot-product kernel variants - f32_dot_product_neon in
src/C/cosine_neon.c, the NEON branch of f32_dot_product_simd in
src/C/cosine_simd.c, and f32_dot_product_neon in src/simd/cosine_neon.c -
compute identical results on every pair of inputs: they are the same function,
loop for loop and rounding for rounding. -/
theorem c10_dot_kernels_identical (x y : List ℚ) :
    CosineSimd.f32_dot_product_simd x y = CosineNeon.f32_dot_product_neon x y ∧
    SimdCosineNeon.f32_dot_product_neon x y = CosineNeon.f32_dot_product_neon x y := by
  constructor
  · simp only [CosineSimd.f32_dot_product_simd, CosineNeon.f32_dot_product_neon,
      dotMain_simd_eq, dotTail_simd_eq]
  · simp only [SimdCosineNeon.f32_dot_product_neon, CosineNeon.f32_dot_product_neon,
      dotMain_simdneon_eq, dotTail_simdneon_eq]

theorem roundNearestEven_le (q : ℚ) : (roundNearestEven q : ℚ) ≤ q + 1/2 := by
  simp only [roundNearestEven]
  have h1 := Int.floor_le q
  have h2 := Int.lt_floor_add_one q
  split_ifs with ha hb hc <;> push_cast at * <;> linarith

theorem roundNearestEven_ge (q : ℚ) : q - 1/2 ≤ (roundNearestEven q : ℚ) := by
  simp only [roundNearestEven]
  have h1 := Int.floor_le q
  have h2 := Int.lt_floor_add_one q
  split_ifs with ha hb hc <;> push_cast at * <;> linarith

/-- Rounding is idempotent: the result of `rfp prec` is itself representable. -/
theorem rfp_fixed (prec : ℕ) (q : ℚ) : rfp prec (rfp prec q) = rfp prec q := by
  by_cases hq : q = 0
  · simp [hq, rfp]
  · have hq0 : 0 < |q| := abs_pos.mpr hq
    set E : ℤ := Int.log 2 |q| - prec with hE
    set n : ℤ := roundNearestEven (q / 2 ^ E) with hn
    have hqE : |q / 2 ^ E| < 2 ^ ((prec : ℤ) + 1) := by
      have hub : |q| < (2 : ℚ) ^ (Int.log 2 |q| + 1) := by
        have := Int.lt_zpow_succ_log_self (b := 2) (by norm_num : 1 < 2) |q|
        push_cast at this
        exact this
      rw [abs_div, abs_of_pos (show (0:ℚ) < 2 ^ E by positivity),
        div_lt_iff₀ (by positivity : (0:ℚ) < 2 ^ E),
        ← zpow_add₀ (by norm_num : (2:ℚ) ≠ 0)]
      calc |q| < (2 : ℚ) ^ (Int.log 2 |q| + 1) := hub
        _ = (2 : ℚ) ^ ((prec : ℤ) + 1 + E) := by rw [hE]; ring_nf
    have hnb : |n| ≤ 2 ^ (prec + 1) := by
      have h1 : (n : ℚ) ≤ q / 2 ^ E + 1/2 := roundNearestEven_le _
      have h2 : q / 2 ^ E - 1/2 ≤ (n : ℚ) := roundNearestEven_ge _
      have h3 : |(n : ℚ)| ≤ |q / 2 ^ E| + 1/2 := by
        rw [abs_le]
        rw [abs_lt] at hqE
        constructor <;> cases abs_cases (q / 2 ^ E) <;> linarith [neg_abs_le (q / 2 ^ E),
          le_abs_self (q / 2 ^ E)]
      have h4 : |(n : ℚ)| < (2 : ℚ) ^ ((prec : ℤ) + 1) + 1/2 := by linarith
      have h5 : (|n| : ℚ) < ((2 ^ (prec + 1) : ℤ) : ℚ) + 1 := by
        rw [show ((prec : ℤ) + 1) = ((prec + 1 : ℕ) : ℤ) by push_cast; ring,
          zpow_natCast] at h4
        push_cast
        linarith
      have h6 : |n| < 2 ^ (prec + 1) + 1 := by exact_mod_cast h5
      omega
    rw [show rfp prec q = ((n : ℤ) : ℚ) * 2 ^ E from by rw [rfp, if_neg hq]]
    exact rfp_eq_self hnb

theorem dotTail_r32_fixed :
    ∀ (xs ys : List ℚ) (s : ℚ), r32 s = s →
      r32 (CosineNeon.dotTail xs ys s) = CosineNeon.dotTail xs ys s
  | x :: xs, y :: ys, s, _ =>
      dotTail_r32_fixed xs ys (f32_add s (f32_mul x y)) (rfp_fixed 23 _)
  | [], _, _, h => h
  | _ :: _, [], _, h => h

/-- C7 (amended): the scalar tail of the dot product kernel is computed and
accumulated in single precision, exactly like the aligned portion; the sum is
widened to double only at the final store, after the tail.  Consequently the
returned double is always exactly a binary32 value (a fixed point of r32) -
which would not hold if the tail were added in double precision, as the
counterexample shows. -/
theorem c7_tail_single_precision (x y : List ℚ) :
    r32 (CosineNeon.f32_dot_product_neon x y) = CosineNeon.f32_dot_product_neon x y := by
  unfold CosineNeon.f32_dot_product_neon
  exact dotTail_r32_fixed _ _ _ (rfp_fixed 23 _)

theorem r32_sq_of_one_plus_eps :
    r32 (1099513724929/1099511627776 : ℚ) = 524289/524288 :=
  @rfp_eq 23 (1099513724929/1099511627776) (524289/524288) 0 8388624
    (by norm_num) (by norm_num) (by norm_num) (by norm_num) (by norm_num) (by norm_num)

/-- C7 (counterexample): the claim that the scalar tail is computed and added
in double precision is false on the code.  On the single-element input
1 + 2^-20 (whose square needs 41 significand bits), the code rounds the tail
through binary32 and returns 1 + 2^-19, while the spec-described computation
(tail in double precision) returns the exact square 1 + 2^-19 + 2^-40. -/
theorem c7_tail_precision_counterexample :
    CosineNeon.f32_dot_product_neon [1048577/1048576] [1048577/1048576]
      ≠ dotProduct_spec [1048577/1048576] [1048577/1048576] := by
  have hmul : (1048577/1048576 : ℚ) * (1048577/1048576)
      = 1099513724929/1099511627776 := by norm_num
  have h64 : r64 (1099513724929/1099511627776 : ℚ) = 1099513724929/1099511627776 :=
    r64_dyadic 1099513724929 (-40) (by norm_num) (by norm_num)
  have h32b : r32 (524289/524288 : ℚ) = 524289/524288 :=
    r32_dyadic 524289 (-19) (by norm_num) (by norm_num)
  norm_num [CosineNeon.f32_dot_product_neon, dotProduct_spec, CosineNeon.dotMain,
    CosineNeon.dotTail, specDotTail, vmovq_n_f32, vaddvq_f32, f32_add, f32_mul,
    f64_add, f64_mul, r32_zero, hmul, r32_sq_of_one_plus_eps, h64, h32b]

theorem readU32c_le4 (n : ℕ) (rest : List Cell) (h : n < 2 ^ 32) :
    readU32c (le4 n ++ rest) = some (n, rest) := by
  simp only [le4, List.cons_append, List.nil_append, readU32c, Option.some.injEq,
    Prod.mk.injEq, and_true]
  omega

theorem readBytesc_append :
    ∀ (s : List ℕ) (rest : List Cell),
      readBytesc s.length (s.map Cell.byte ++ rest) = some (s, rest)
  | [], rest => rfl
  | a :: s, rest => by
    simp only [List.length_cons, List.map_cons, List.cons_append, readBytesc,
      List.append_eq, Option.pure_def, readBytesc_append s rest, Option.bind_eq_bind,
      Option.some_bind]

theorem read_str_lpstr (s : List ℕ) (rest : List Cell) (h : s.length < 2 ^ 32) :
    read_str (lpstr s ++ rest) = some (s, rest) := by
  simp only [read_str, lpstr, List.append_assoc, readU32c_le4 s.length _ h,
    Option.bind_eq_bind, Option.some_bind, readBytesc_append]

theorem readFloats_append :
    ∀ (v : List ℚ) (rest : List Cell),
      readFloats v.length (v.map Cell.flt ++ rest) = some (v, rest)
  | [], rest => rfl
  | a :: v, rest => by
    simp only [List.length_cons, List.map_cons, List.cons_append, readFloats,
      List.append_eq, Option.pure_def, readFloats_append v rest, Option.bind_eq_bind,
      Option.some_bind]

theorem scaleQ_one : ∀ (v : List ℚ), (∀ x ∈ v, r32 x = x) → CosineNeon.scaleQ 1 v = v
  | [], _ => rfl
  | [a], h => by
    simp [CosineNeon.scaleQ, f32_mul, h a (by simp)]
  | [a, b], h => by
    simp [CosineNeon.scaleQ, f32_mul, h a (by simp), h b (by simp)]
  | [a, b, c], h => by
    simp [CosineNeon.scaleQ, f32_mul, h a (by simp), h b (by simp), h c (by simp)]
  | a :: b :: c :: d :: rest, h => by
    rw [CosineNeon.scaleQ, scaleQ_one rest (fun x hx => h x (by simp [hx]))]
    simp [f32_mul, h a (by simp), h b (by simp), h c (by simp), h d (by simp)]

theorem norm_neonQ_id (est : ℚ → ℚ) (v : List ℚ) (hest : est 1 = 1)
    (hrep : ∀ x ∈ v, r32 x = x) (hsum : CosineNeon.sumsq v = 1) :
    CosineNeon.norm_neonQ est v = v := by
  simp only [CosineNeon.norm_neonQ, hsum, hest]
  norm_num [f32_mul, CosineNeon.vrsqrtsQ, r32_one]
  exact scaleQ_one v hrep

theorem readChunk_enc (est : ℚ → ℚ) (r : RecordData) (rest : List Cell)
    (h1 : r.id.length < 2 ^ 32) (h2 : r.parent.length < 2 ^ 32)
    (h3 : r.file.length < 2 ^ 32) (h4 : r.ext.length < 2 ^ 32)
    (h5 : r.text.length < 2 ^ 32) (h6 : r.start_ln < 2 ^ 32) (h7 : r.end_ln < 2 ^ 32)
    (h8 : r.emb.length < 2 ^ 32)
    (hnorm : CosineNeon.norm_neonQ est r.emb = r.emb) :
    readChunk est (encRecord r ++ rest) = some (toChunk r, rest) := by
  simp only [readChunk, encRecord, List.append_assoc, read_str_lpstr r.id _ h1,
    read_str_lpstr r.parent _ h2, read_str_lpstr r.file _ h3, read_str_lpstr r.ext _ h4,
    read_str_lpstr r.text _ h5, readU32c_le4 r.start_ln _ h6, readU32c_le4 r.end_ln _ h7,
    readU32c_le4 r.emb.length _ h8, readFloats_append, hnorm, toChunk,
    Option.pure_def, Option.bind_eq_bind, Option.some_bind]

theorem readChunks_enc (est : ℚ → ℚ) :
    ∀ (rs : List RecordData) (rest : List Cell), (est 1 = 1) →
      (∀ r ∈ rs, r.id.length < 2 ^ 32 ∧ r.parent.length < 2 ^ 32 ∧
        r.file.length < 2 ^ 32 ∧ r.ext.length < 2 ^ 32 ∧ r.text.length < 2 ^ 32 ∧
        r.start_ln < 2 ^ 32 ∧ r.end_ln < 2 ^ 32 ∧ r.emb.length < 2 ^ 32 ∧
        (∀ x ∈ r.emb, r32 x = x) ∧ CosineNeon.sumsq r.emb = 1) →
      readChunks est rs.length ((rs.map encRecord).flatten ++ rest)
        = some (rs.map toChunk, rest)
  | [], rest, _, _ => rfl
  | r :: rs, rest, hest, hwf => by
    obtain ⟨h1, h2, h3, h4, h5, h6, h7, h8, hrep, hsum⟩ := hwf r (by simp)
    rw [List.length_cons, List.map_cons, List.flatten_cons, List.append_assoc, readChunks,
      readChunk_enc est r _ h1 h2 h3 h4 h5 h6 h7 h8 (norm_neonQ_id est r.emb hest hrep hsum)]
    simp only [Option.pure_def, Option.bind_eq_bind, Option.some_bind,
      readChunks_enc est rs rest hest (fun x hx => hwf x (by simp [hx])), List.map_cons]

/-- C5: round trip.  For every corpus file built from known field values whose
embeddings are already unit (their sum of squares as the kernel computes it is
exactly 1, each component binary32-representable, and the reciprocal-sqrt
estimate is exact at 1), loading the file and reading each record through the
accessors reproduces every string and numeric field exactly as written, and
the embeddings are numerically unchanged. -/
theorem c5_roundtrip (est : ℚ → ℚ) (rs : List RecordData) (hest : est 1 = 1)
    (hN : rs.length < 2 ^ 32)
    (hwf : ∀ r ∈ rs, r.id.length < 2 ^ 32 ∧ r.parent.length < 2 ^ 32 ∧
      r.file.length < 2 ^ 32 ∧ r.ext.length < 2 ^ 32 ∧ r.text.length < 2 ^ 32 ∧
      r.start_ln < 2 ^ 32 ∧ r.end_ln < 2 ^ 32 ∧ r.emb.length < 2 ^ 32 ∧
      (∀ x ∈ r.emb, r32 x = x) ∧ CosineNeon.sumsq r.emb = 1) :
    ci_load est (encFile rs) = some ⟨rs.map toChunk⟩ ∧
    ∀ i (hi : i < rs.length),
      ci_get_id ⟨rs.map toChunk⟩ i = (rs.get ⟨i, hi⟩).id ∧
      ci_get_parent ⟨rs.map toChunk⟩ i = (rs.get ⟨i, hi⟩).parent ∧
      ci_get_file ⟨rs.map toChunk⟩ i = (rs.get ⟨i, hi⟩).file ∧
      ci_get_ext ⟨rs.map toChunk⟩ i = (rs.get ⟨i, hi⟩).ext ∧
      ci_get_start ⟨rs.map toChunk⟩ i = (rs.get ⟨i, hi⟩).start_ln ∧
      ci_get_end ⟨rs.map toChunk⟩ i = (rs.get ⟨i, hi⟩).end_ln ∧
      ci_get_text ⟨rs.map toChunk⟩ i = (rs.get ⟨i, hi⟩).text ∧
      ((⟨rs.map toChunk⟩ : ChunkIndex).chunks.getD i chunkDflt).emb
        = (rs.get ⟨i, hi⟩).emb := by
  constructor
  · rw [show encFile rs = le4 rs.length ++ ((rs.map encRecord).flatten ++ []) from by
      simp [encFile]]
    simp only [ci_load, readU32c_le4 rs.length _ hN, Option.bind_eq_bind, Option.some_bind,
      readChunks_enc est rs [] hest hwf, Option.pure_def]
  · intro i hi
    have hmap : (rs.map toChunk).getD i chunkDflt = toChunk (rs.get ⟨i, hi⟩) := by
      rw [List.getD_eq_getElem _ _ (by simpa using hi)]
      simp [List.getElem_map, List.get_eq_getElem]
    simp only [ci_get_id, ci_get_parent, ci_get_file, ci_get_ext, ci_get_start,
      ci_get_end, ci_get_text, hmap, toChunk, and_self]

/-- Witness for C5 at a concrete one-record file with nontrivial field values
and the already-unit embedding [1,0,0,0]. -/
theorem c5_roundtrip_witness :
    ci_load (fun _ => 1) (encFile [exRecord]) = some ⟨[exRecord].map toChunk⟩ ∧
    ∀ i (hi : i < [exRecord].length),
      ci_get_id ⟨[exRecord].map toChunk⟩ i = ([exRecord].get ⟨i, hi⟩).id ∧
      ci_get_parent ⟨[exRecord].map toChunk⟩ i = ([exRecord].get ⟨i, hi⟩).parent ∧
      ci_get_file ⟨[exRecord].map toChunk⟩ i = ([exRecord].get ⟨i, hi⟩).file ∧
      ci_get_ext ⟨[exRecord].map toChunk⟩ i = ([exRecord].get ⟨i, hi⟩).ext ∧
      ci_get_start ⟨[exRecord].map toChunk⟩ i = ([exRecord].get ⟨i, hi⟩).start_ln ∧
      ci_get_end ⟨[exRecord].map toChunk⟩ i = ([exRecord].get ⟨i, hi⟩).end_ln ∧
      ci_get_text ⟨[exRecord].map toChunk⟩ i = ([exRecord].get ⟨i, hi⟩).text ∧
      ((⟨[exRecord].map toChunk⟩ : ChunkIndex).chunks.getD i chunkDflt).emb
        = ([exRecord].get ⟨i, hi⟩).emb :=
  c5_roundtrip (fun _ => 1) [exRecord] rfl (by norm_num) (by
    intro r hr
    rw [List.mem_singleton.mp hr]
    refine ⟨by norm_num [exRecord], by norm_num [exRecord], by norm_num [exRecord],
      by norm_num [exRecord], by norm_num [exRecord], by norm_num [exRecord],
      by norm_num [exRecord], by norm_num [exRecord], ?_, ?_⟩
    · intro x hx
      simp only [exRecord] at hx
      rcases List.mem_cons.mp hx with rfl | hx1
      · exact r32_one
      · rcases List.mem_cons.mp hx1 with rfl | hx2
        · exact r32_zero
        · rcases List.mem_cons.mp hx2 with rfl | hx3
          · exact r32_zero
          · rcases List.mem_cons.mp hx3 with rfl | hx4
            · exact r32_zero
            · simp at hx4
    · norm_num [exRecord, CosineNeon.sumsq, CosineNeon.sumsqMain, CosineNeon.sumsqTail,
        vmovq_n_f32, vmlaq_f32, vaddvq_f32, f32_add, f32_mul, r32_zero, r32_one])
